import Mathlib

/-!
Shallow embedding of the pixel-sorting effects engine of the Pixelsorting
repository, together with proofs about its behaviour.

Conventions of the embedding:

* A Python RGBA tuple becomes `Pixel := ℕ × ℕ × ℕ × ℕ`; a pixel array
  (list of rows of pixels) becomes `Grid := List (List Pixel)`.
* Python floats are modelled as rationals `ℚ`.  Every float computation the
  claims touch (channel / 255, thresholds, `total / 2` for small totals,
  `characteristic_length * (1 - random())`) is exact in binary floating point
  or only compared at exactly representable points, so `ℚ` is faithful there.
* The process-wide pseudo-random generator is modelled by explicit streams:
  `rng : ℕ → ℕ` for `rand.randint(0, 100)` draws (values in `[0, 100]`) and
  `u : ℕ → ℚ` for `rand.random()` draws (values in `[0, 1)`), consumed at a
  running index that is threaded through the computation in program order.
* Python list indexing that the source guards with explicit bounds checks is
  modelled with `·[·]?` / `getD`; the guards in the source make the defaults
  unreachable in the regimes the source is called in.
* `while True:` loops (the `random` and `waves` interval strategies) are
  modelled with explicit fuel, returning `Option`: `none` means the loop did
  not exit within the given fuel.

Source files embedded: `pixelsort/core/sorting.py`,
`pixelsort/effects/sorting_functions.py`, `pixelsort/effects/interval_functions.py`,
`pixelsort/effects/special_effects.py`, `pixelsort/utils/exceptions.py`.
-/

namespace Pixelsort

/-- An RGBA pixel: four unsigned 8-bit channels `(r, g, b, a)`. -/
abbrev Pixel : Type := ℕ × ℕ × ℕ × ℕ

/-- A pixel grid: an ordered list of rows, each an ordered list of pixels. -/
abbrev Grid : Type := List (List Pixel)

/-- Constant `BLACK_PIXEL = (0, 0, 0, 255)` from `interval_functions.py`. -/
def BLACK_PIXEL : Pixel := (0, 0, 0, 255)

/-- Constant `WHITE_PIXEL = (255, 255, 255, 255)` from `interval_functions.py`. -/
def WHITE_PIXEL : Pixel := (255, 255, 255, 255)

/-- Python `x % 1.0` on a non-negative float: the fractional part. -/
def mod1 (x : ℚ) : ℚ := x - ⌊x⌋

/-- Embeds `colorsys.rgb_to_hsv` from the Python standard library, over rationals.
Mirrors the stdlib source line by line (`v = maxc`; early return when
`minc == maxc`; hue selected by which channel attains the maximum). -/
def rgb_to_hsv (r g b : ℚ) : ℚ × ℚ × ℚ :=
  let maxc := max r (max g b)
  let minc := min r (min g b)
  let v := maxc
  if minc = maxc then (0, 0, v)
  else
    let s := (maxc - minc) / maxc
    let rc := (maxc - r) / (maxc - minc)
    let gc := (maxc - g) / (maxc - minc)
    let bc := (maxc - b) / (maxc - minc)
    let h := if r = maxc then bc - gc else if g = maxc then 2 + rc - bc else 4 + gc - rc
    (mod1 (h / 6), s, v)

/-- A sort key: a pure function from a pixel to a rational scalar
(`SortingFunction` in `sorting_functions.py`). -/
abbrev SortingFunction := Pixel → ℚ

/-- Key `lightness_sort`: the HSV value component of the normalized channels. -/
def lightness_sort (p : Pixel) : ℚ :=
  (rgb_to_hsv ((p.1 : ℚ) / 255) ((p.2.1 : ℚ) / 255) ((p.2.2.1 : ℚ) / 255)).2.2

/-- Key `intensity_sort`: sum of the R, G, B channels. -/
def intensity_sort (p : Pixel) : ℚ := (p.1 : ℚ) + p.2.1 + p.2.2.1

/-- Key `hue_sort`: the HSV hue component of the normalized channels. -/
def hue_sort (p : Pixel) : ℚ :=
  (rgb_to_hsv ((p.1 : ℚ) / 255) ((p.2.1 : ℚ) / 255) ((p.2.2.1 : ℚ) / 255)).1

/-- Key `saturation_sort`: the HSV saturation component of the normalized channels. -/
def saturation_sort (p : Pixel) : ℚ :=
  (rgb_to_hsv ((p.1 : ℚ) / 255) ((p.2.1 : ℚ) / 255) ((p.2.2.1 : ℚ) / 255)).2.1

/-- Key `minimum_sort`: minimum of the R, G, B channels. -/
def minimum_sort (p : Pixel) : ℚ := ((min p.1 (min p.2.1 p.2.2.1) : ℕ) : ℚ)

/-- Key `maximum_sort`: maximum of the R, G, B channels. -/
def maximum_sort (p : Pixel) : ℚ := ((max p.1 (max p.2.1 p.2.2.1) : ℕ) : ℚ)

/-- Key `red_sort`: the red channel. -/
def red_sort (p : Pixel) : ℚ := (p.1 : ℚ)

/-- Key `green_sort`: the green channel. -/
def green_sort (p : Pixel) : ℚ := (p.2.1 : ℚ)

/-- Key `blue_sort`: the blue channel. -/
def blue_sort (p : Pixel) : ℚ := (p.2.2.1 : ℚ)

/-- Key `alpha_sort`: the alpha channel. -/
def alpha_sort (p : Pixel) : ℚ := (p.2.2.2 : ℚ)

/-- The `SORTING_FUNCTIONS` registry of `sorting_functions.py`, in source
order, as an association list. -/
def SORTING_FUNCTIONS : List (String × SortingFunction) :=
  [("lightness", lightness_sort),
   ("intensity", intensity_sort),
   ("hue", hue_sort),
   ("saturation", saturation_sort),
   ("minimum", minimum_sort),
   ("red", red_sort),
   ("green", green_sort),
   ("blue", blue_sort),
   ("alpha", alpha_sort),
   ("maximum", maximum_sort)]

/-- The payload of `FunctionNotFoundError` from `utils/exceptions.py`
(`function_type`, `function_name`, `available_functions`). -/
structure FunctionNotFoundError where
  function_type : String
  function_name : String
  available_functions : List String
deriving DecidableEq, Repr

/-- Lookup `get_sorting_function`: raises `FunctionNotFoundError` when the name is
not a key of the registry, otherwise returns the registered function. -/
def get_sorting_function (name : String) :
    Except FunctionNotFoundError SortingFunction :=
  match SORTING_FUNCTIONS.lookup name with
  | Option.none =>
      Except.error ⟨"sorting", name, SORTING_FUNCTIONS.map Prod.fst⟩
  | Option.some f => Except.ok f

/-- Tags for the entries of the `INTERVAL_FUNCTIONS` registry.  The Python
registry maps names to functions of heterogeneous behaviour (seven return
interval boundaries, three return a whole modified grid), so the registry is
embedded with one tag per registered function; the functions themselves are
embedded separately below. -/
inductive IntervalFunctionTag where
  | randomTag
  | thresholdTag
  | edgesTag
  | wavesTag
  | noneTag
  | fileTag
  | fileEdgesTag
  | snapTag
  | shuffleTotalTag
  | shuffleAxisTag
deriving DecidableEq, Repr

/-- The `INTERVAL_FUNCTIONS` registry of `interval_functions.py`, in source
order. -/
def INTERVAL_FUNCTIONS : List (String × IntervalFunctionTag) :=
  [("random", IntervalFunctionTag.randomTag),
   ("threshold", IntervalFunctionTag.thresholdTag),
   ("edges", IntervalFunctionTag.edgesTag),
   ("waves", IntervalFunctionTag.wavesTag),
   ("none", IntervalFunctionTag.noneTag),
   ("file", IntervalFunctionTag.fileTag),
   ("file-edges", IntervalFunctionTag.fileEdgesTag),
   ("snap", IntervalFunctionTag.snapTag),
   ("shuffle-total", IntervalFunctionTag.shuffleTotalTag),
   ("shuffle-axis", IntervalFunctionTag.shuffleAxisTag)]

/-- Lookup `get_interval_function`: raises `FunctionNotFoundError` when the name is
not a key of the registry, otherwise returns the registered function. -/
def get_interval_function (name : String) :
    Except FunctionNotFoundError IntervalFunctionTag :=
  match INTERVAL_FUNCTIONS.lookup name with
  | Option.none =>
      Except.error ⟨"interval", name, INTERVAL_FUNCTIONS.map Prod.fst⟩
  | Option.some f => Except.ok f

/-- Embeds `sort_interval` from `core/sorting.py`: return `[]` for an empty list,
otherwise the list sorted ascending by the key.  Python's `sorted` is the
stable sort by the key; a stable sort under a total preorder is extensionally
unique, and `List.insertionSort` is stable, so this is the same function. -/
def sort_interval (pixel_list : List Pixel) (sorting_function : SortingFunction) :
    List Pixel :=
  match pixel_list with
  | [] => []
  | _ => List.insertionSort (fun a b => sorting_function a ≤ sorting_function b) pixel_list

/-- The interval-extraction loop of `sort_image`:
`for x in range(x_min, x_max): if x < len(row): interval.append(row[x])`. -/
def extract_interval (row : List Pixel) (x_min x_max : ℕ) : List Pixel :=
  (List.range' x_min (x_max - x_min)).filterMap (fun x => row[x]?)

/-- The inner loop of `sort_image` over one row's interval boundaries.
State: the boundaries still to process, the running `x_min`, and the index of
the next `rand.randint(0, 100)` draw.  Returns the reconstructed row, the
final `x_min`, and the next draw index.  An interval is sorted exactly when
its draw is `≥ randomness`. -/
def sort_row_go (row : List Pixel) (randomness : ℚ) (f : SortingFunction)
    (rng : ℕ → ℕ) : List ℕ → ℕ → ℕ → List Pixel × ℕ × ℕ
  | [], x_min, k => ([], x_min, k)
  | x_max :: rest, x_min, k =>
    let interval := extract_interval row x_min x_max
    let piece := if randomness ≤ (rng k : ℚ) then sort_interval interval f else interval
    let res := sort_row_go row randomness f rng rest x_max (k + 1)
    (piece ++ res.1, res.2)

/-- The outer loop of `sort_image` over rows, threading the draw index.
After the boundary loop, `if len(pixels[y]) > 0 and x_min == 0:` a single
copy of the row's first pixel is appended. -/
def sort_rows (randomness : ℚ) (f : SortingFunction) (rng : ℕ → ℕ) :
    Grid → List (List ℕ) → ℕ → Grid
  | [], _, _ => []
  | row :: rows, ivs, k =>
    let res := sort_row_go row randomness f rng ivs.headI 0 k
    let srow := if 0 < row.length ∧ res.2.1 = 0 then res.1 ++ [row.headI] else res.1
    srow :: sort_rows randomness f rng rows ivs.tail res.2.2

/-- Embeds `sort_image` from `core/sorting.py`: sort each row's intervals,
gated per interval by a fresh `randint(0, 100)` draw. -/
def sort_image (pixels : Grid) (intervals : List (List ℕ)) (randomness : ℚ)
    (sorting_function : SortingFunction) (rng : ℕ → ℕ) : Grid :=
  sort_rows randomness sorting_function rng pixels intervals 0

/-- Strategy `no_intervals`: one boundary per row, at the row's length. -/
def no_intervals (pixels : Grid) : List (List ℕ) :=
  pixels.map (fun row => [row.length])

/-- Strategy `threshold_intervals`: a boundary at every column whose lightness is
below `bottom_threshold` or above `upper_threshold`, then a trailing
boundary at `len(pixels[0])`. -/
def threshold_intervals (pixels : Grid) (bottom_threshold upper_threshold : ℚ) :
    List (List ℕ) :=
  let w := (pixels.headI).length
  pixels.map (fun row =>
    (List.range w).filter (fun x =>
      decide (lightness_sort (row.getD x (0, 0, 0, 0)) < bottom_threshold ∨
        upper_threshold < lightness_sort (row.getD x (0, 0, 0, 0)))) ++ [w])

/-- Python `int(x)` for the cursor of `random_intervals`.  The cursor is a
sum of `clength * (1 - rand.random())` steps, with draws in `[0, 1)`, so it
never goes below 0, where truncation and floor agree. -/
def pyInt (q : ℚ) : ℕ := (⌊q⌋).toNat

/-- The `while True:` loop of `random_intervals` for one row, with fuel.
State: the running cursor `x` and the index `k` of the next `rand.random()`
draw.  Per iteration: `x += clength * (1 - u k)`; if `x > width` append
`width` and exit, else append `int(x)` and continue.  Returns the boundary
list and the next draw index; `none` when the fuel runs out before the loop
exits. -/
def random_row_go (width clength : ℕ) (u : ℕ → ℚ) :
    ℕ → ℚ → ℕ → Option (List ℕ × ℕ)
  | 0, _, _ => Option.none
  | fuel + 1, x, k =>
    let x' := x + (clength : ℚ) * (1 - u k)
    if (width : ℚ) < x' then Option.some ([width], k + 1)
    else
      match random_row_go width clength u fuel x' (k + 1) with
      | Option.none => Option.none
      | Option.some (bs, k') => Option.some (pyInt x' :: bs, k')

/-- The row loop of `random_intervals`: one `random_row_go` run per row,
cursor reset to 0, draw index threaded; `width = len(pixels[0])`. -/
def random_intervals_go (width clength : ℕ) (u : ℕ → ℚ) (fuel : ℕ) :
    Grid → ℕ → Option (List (List ℕ))
  | [], _ => Option.some []
  | _ :: rows, k =>
    match random_row_go width clength u fuel 0 k with
    | Option.none => Option.none
    | Option.some (bs, k') =>
      match random_intervals_go width clength u fuel rows k' with
      | Option.none => Option.none
      | Option.some rest => Option.some (bs :: rest)

/-- Strategy `random_intervals` from `interval_functions.py` (`clength` is an `int`
validated non-negative by `config/settings.py`). -/
def random_intervals (pixels : Grid) (clength : ℕ) (u : ℕ → ℚ) (fuel : ℕ) :
    Option (List (List ℕ)) :=
  random_intervals_go (pixels.headI).length clength u fuel pixels 0

/-- The `while True:` loop of `wave_intervals` for one row, with fuel.
Per iteration: `x += clength + randint(0, 10)` (draw stream `r`); if
`x > width` append `width` and exit, else append `x` (not truncated: the
step is integral here since `clength` is an `int`). -/
def wave_row_go (width clength : ℕ) (r : ℕ → ℕ) :
    ℕ → ℕ → ℕ → Option (List ℕ × ℕ)
  | 0, _, _ => Option.none
  | fuel + 1, x, k =>
    let x' := x + clength + r k
    if width < x' then Option.some ([width], k + 1)
    else
      match wave_row_go width clength r fuel x' (k + 1) with
      | Option.none => Option.none
      | Option.some (bs, k') => Option.some (x' :: bs, k')

/-- The row loop of `wave_intervals`. -/
def wave_intervals_go (width clength : ℕ) (r : ℕ → ℕ) (fuel : ℕ) :
    Grid → ℕ → Option (List (List ℕ))
  | [], _ => Option.some []
  | _ :: rows, k =>
    match wave_row_go width clength r fuel 0 k with
    | Option.none => Option.none
    | Option.some (bs, k') =>
      match wave_intervals_go width clength r fuel rows k' with
      | Option.none => Option.none
      | Option.some rest => Option.some (bs :: rest)

/-- Strategy `wave_intervals` from `interval_functions.py`. -/
def wave_intervals (pixels : Grid) (clength : ℕ) (r : ℕ → ℕ) (fuel : ℕ) :
    Option (List (List ℕ)) :=
  wave_intervals_go (pixels.headI).length clength r fuel pixels 0

/-- Loop `append_black_white_pixel` applied over the whole auxiliary image: a
`W × H` map in which a pixel is white when its lightness in the filter image
is below the threshold, black otherwise. -/
def black_white_map (W H : ℕ) (filter_pixels : Grid) (threshold : ℚ) : Grid :=
  (List.range H).map (fun y =>
    (List.range W).map (fun x =>
      if lightness_sort ((filter_pixels.getD y []).getD x (0, 0, 0, 0)) < threshold
      then WHITE_PIXEL else BLACK_PIXEL))

/-- One row of the clean-up sweep shared by the edge strategies:
`for x in range(len(pixels[0]) - 1, 1, -1)`, set column `x` to white when
columns `x` and `x - 1` are both black, mutating the row in place. -/
def denoise_row (W : ℕ) (row : List Pixel) : List Pixel :=
  ((List.range' 2 (W - 2)).reverse).foldl
    (fun r x =>
      if r.getD x (0, 0, 0, 0) = BLACK_PIXEL ∧ r.getD (x - 1) (0, 0, 0, 0) = BLACK_PIXEL
      then r.set x WHITE_PIXEL else r) row

/-- The clean-up sweep of `edge_intervals` / `file_mask_intervals` /
`file_edges_intervals`: `for y in range(len(pixels) - 1, 1, -1)` apply the
row sweep to row `y` (the iteration stops before rows 1 and 0). -/
def clean_edges (W H : ℕ) (px : Grid) : Grid :=
  ((List.range' 2 (H - 2)).reverse).foldl
    (fun g y => g.set y (denoise_row W (g.getD y []))) px

/-- The boundary-defining loop shared by the edge strategies: per row, the
columns holding black pixels, then a trailing boundary at `W`. -/
def define_intervals (px : Grid) (W H : ℕ) : List (List ℕ) :=
  (List.range H).map (fun y =>
    (List.range W).filter
      (fun x => decide ((px.getD y []).getD x (0, 0, 0, 0) = BLACK_PIXEL)) ++ [W])

/-- Strategy `edge_intervals`.  Loading the source image, rotating it and applying
PIL's edge-detection filter are external collaborators; the filter image
enters here as `filter_pixels`.  The algorithmic content — black/white
thresholding against `bottom_threshold`, the clean-up sweep, and the
boundary-defining loop — is embedded from the source. -/
def edge_intervals (pixels : Grid) (filter_pixels : Grid) (bottom_threshold : ℚ) :
    List (List ℕ) :=
  let W := (pixels.headI).length
  let H := pixels.length
  define_intervals (clean_edges W H (black_white_map W H filter_pixels bottom_threshold)) W H

/-- Strategy `file_mask_intervals`.  The cellular-automaton mask is generated and
LANCZOS-resized externally and enters as `file_pixels`; no thresholding is
applied in this strategy — the clean-up sweep and the boundary definition
run directly on the mask. -/
def file_mask_intervals (pixels : Grid) (file_pixels : Grid) : List (List ℕ) :=
  let W := (pixels.headI).length
  let H := pixels.length
  define_intervals (clean_edges W H file_pixels) W H

/-- Strategy `file_edges_intervals`: as `edge_intervals` but the auxiliary image is
the rotated, resized, edge-filtered CA mask (external); thresholding, the
clean-up sweep and the boundary definition are the same. -/
def file_edges_intervals (pixels : Grid) (filter_pixels : Grid) (bottom_threshold : ℚ) :
    List (List ℕ) :=
  let W := (pixels.headI).length
  let H := pixels.length
  define_intervals (clean_edges W H (black_white_map W H filter_pixels bottom_threshold)) W H

/-- The triple enumeration order of `generate_rule`'s nested loops: `left`
outermost, then `middle`, then `right`, `False` before `True`. -/
def tripleOrder : List (Bool × Bool × Bool) :=
  [(false, false, false), (false, false, true), (false, true, false), (false, true, true),
   (true, false, false), (true, false, true), (true, true, false), (true, true, true)]

/-- The loop body of `generate_rule` in `special_effects.py`: assign
`rule_num % 2 == 1` to the next triple, then `rule_num //= 2`. -/
def generate_rule_go : List (Bool × Bool × Bool) → ℕ → List ((Bool × Bool × Bool) × Bool)
  | [], _ => []
  | t :: ts, rule_num => (t, decide (rule_num % 2 = 1)) :: generate_rule_go ts (rule_num / 2)

/-- Embeds `generate_rule`: the 8-entry cellular-automaton rule table as a function
on `(left, middle, right)` triples. -/
def generate_rule (rule_num : ℕ) (t : Bool × Bool × Bool) : Bool :=
  ((generate_rule_go tripleOrder rule_num).lookup t).getD false

/-- Python `int(round(total / 2, 0))` from `apply_thanos_snap`: round half
to even (Python 3 `round` semantics; `total / 2` is exactly representable in
floating point for any realistic pixel count, so the rational model is
exact). -/
def round_half_even (q : ℚ) : ℤ :=
  if q - ⌊q⌋ < 1 / 2 then ⌊q⌋
  else if 1 / 2 < q - ⌊q⌋ then ⌊q⌋ + 1
  else if ⌊q⌋ % 2 = 0 then ⌊q⌋ else ⌊q⌋ + 1

/-- The number of pixels `apply_thanos_snap` snaps:
`int(round(total_pixels / 2, 0))`. -/
def snapped_count (total : ℕ) : ℕ := (round_half_even ((total : ℚ) / 2)).toNat

/-- Embeds `apply_thanos_snap`, with the `numpy.random.choice(…, replace=False)`
sample of coordinates made explicit as `coords`: the snapping loop sets each
selected `(x, y)` to transparent black `(0, 0, 0, 0)`.  The source samples
`snapped_count (W * H)` distinct in-range coordinates from the `W × H`
coordinate grid. -/
def apply_thanos_snap (grid : Grid) (coords : List (ℕ × ℕ)) : Grid :=
  coords.foldl (fun g c => g.set c.2 ((g.getD c.2 []).set c.1 (0, 0, 0, 0))) grid

/-- Accessor `grid[y][x]` with a default pixel. -/
def pixelAt (g : Grid) (x y : ℕ) : Pixel := (g.getD y []).getD x (0, 0, 0, 0)

/-- The boundary invariant claimed in the specification: strictly ascending,
every element in `[1, width]`, final element `width`. -/
def SpecBoundaries (bs : List ℕ) (width : ℕ) : Prop :=
  bs.Chain' (· < ·) ∧ (∀ b ∈ bs, 1 ≤ b ∧ b ≤ width) ∧ bs.getLast? = Option.some width

/-- The boundary invariant the code actually maintains: non-decreasing,
every element at most `width` (hence in `[0, width]`), final element
`width`. -/
def CodeBoundaries (bs : List ℕ) (width : ℕ) : Prop :=
  bs.Chain' (· ≤ ·) ∧ (∀ b ∈ bs, b ≤ width) ∧ bs.getLast? = Option.some width

end Pixelsort

namespace Pixelsort

/-! ### Lemmas about interval extraction and interval sorting -/

/-- Guarded extraction over an index range is a `drop`-`take` slice. -/
theorem filterMap_getElem_range' {α : Type} :
    ∀ (n a : ℕ) (l : List α),
      (List.range' a n).filterMap (fun x => l[x]?) = (l.drop a).take n := by
  intro n
  induction n with
  | zero => intro a l; simp
  | succ m ih =>
    intro a l
    rw [List.range'_succ a m 1]
    by_cases h : a < l.length
    · rw [List.drop_eq_getElem_cons h]
      simp only [List.filterMap_cons, List.getElem?_eq_getElem h, List.take_succ_cons]
      rw [ih (a + 1) l]
    · push_neg at h
      rw [List.drop_eq_nil_of_le h, List.take_nil]
      apply List.filterMap_eq_nil_iff.mpr
      intro x hx
      apply List.getElem?_eq_none
      rcases List.mem_cons.mp hx with rfl | hx'
      · omega
      · have := (List.mem_range'_1.mp hx').1
        omega

/-- Lemma: `extract_interval` is a `drop`-`take` slice of the row. -/
theorem extract_interval_eq_drop_take (row : List Pixel) (a b : ℕ) :
    extract_interval row a b = (row.drop a).take (b - a) :=
  filterMap_getElem_range' (b - a) a row

/-- Extracting the full index range of a row returns the row. -/
theorem extract_interval_full (row : List Pixel) :
    extract_interval row 0 row.length = row := by
  simp [extract_interval_eq_drop_take]

/-- Every extracted pixel is a pixel of the row. -/
theorem mem_of_mem_extract_interval {row : List Pixel} {a b : ℕ} {p : Pixel}
    (h : p ∈ extract_interval row a b) : p ∈ row := by
  rw [extract_interval_eq_drop_take] at h
  exact List.drop_subset a row (List.take_subset _ _ h)

/-- Lemma: `sort_interval` permutes its input. -/
theorem sort_interval_perm (l : List Pixel) (f : SortingFunction) :
    (sort_interval l f).Perm l := by
  cases l with
  | nil => simp [sort_interval]
  | cons a t => exact List.perm_insertionSort _ _

/-- Lemma: `sort_interval` sorts ascending by the key. -/
theorem sort_interval_pairwise (l : List Pixel) (f : SortingFunction) :
    (sort_interval l f).Pairwise (fun a b => f a ≤ f b) := by
  haveI : IsTotal Pixel (fun a b => f a ≤ f b) := ⟨fun a b => le_total (f a) (f b)⟩
  haveI : IsTrans Pixel (fun a b => f a ≤ f b) := ⟨fun a b c hab hbc => le_trans hab hbc⟩
  cases l with
  | nil => simp [sort_interval]
  | cons a t => exact List.sorted_insertionSort _ _

/-! ### Lemmas about the row-sorting loop -/

/-- Every pixel produced by the boundary loop is a pixel of the row. -/
theorem mem_sort_row_go {row : List Pixel} {randomness : ℚ} {f : SortingFunction}
    {rng : ℕ → ℕ} :
    ∀ (bounds : List ℕ) (x_min k : ℕ) {p : Pixel},
      p ∈ (sort_row_go row randomness f rng bounds x_min k).1 → p ∈ row := by
  intro bounds
  induction bounds with
  | nil => intro x_min k p h; simp [sort_row_go] at h
  | cons b rest ih =>
    intro x_min k p h
    simp only [sort_row_go, List.mem_append] at h
    rcases h with h | h
    · by_cases hc : randomness ≤ (rng k : ℚ)
      · rw [if_pos hc] at h
        exact mem_of_mem_extract_interval ((sort_interval_perm _ _).mem_iff.mp h)
      · rw [if_neg hc] at h
        exact mem_of_mem_extract_interval h
    · exact ih b (k + 1) h

/-- The boundary loop on the single full-width boundary `[row.length]`. -/
theorem sort_row_go_single (row : List Pixel) (randomness : ℚ) (f : SortingFunction)
    (rng : ℕ → ℕ) (k : ℕ) :
    sort_row_go row randomness f rng [row.length] 0 k =
      ((if randomness ≤ (rng k : ℚ) then sort_interval row f else row),
        row.length, k + 1) := by
  simp only [sort_row_go, extract_interval_full]
  by_cases hc : randomness ≤ (rng k : ℚ) <;> simp [hc]

/-- When every draw refuses the gate, full-width boundaries reproduce the
grid unchanged. -/
theorem sort_rows_full_bounds_unsorted {randomness : ℚ} {f : SortingFunction}
    {rng : ℕ → ℕ} (hr : ∀ n, ¬ randomness ≤ (rng n : ℚ)) :
    ∀ (px : Grid) (k : ℕ),
      sort_rows randomness f rng px (px.map fun row => [row.length]) k = px := by
  intro px
  induction px with
  | nil => intro k; simp [sort_rows]
  | cons row rows ih =>
    intro k
    rw [List.map_cons]
    simp only [sort_rows, List.headI, List.tail, sort_row_go_single, if_neg (hr k)]
    rcases eqn : row with _ | ⟨a, t⟩
    · simpa using ih (k + 1)
    · rw [if_neg (by simp)]
      simpa using ih (k + 1)

/-- When every draw passes the gate, full-width boundaries sort each row. -/
theorem sort_rows_full_bounds_sorted {randomness : ℚ} {f : SortingFunction}
    {rng : ℕ → ℕ} (hr : ∀ n, randomness ≤ (rng n : ℚ)) :
    ∀ (px : Grid) (k : ℕ),
      sort_rows randomness f rng px (px.map fun row => [row.length]) k =
        px.map (fun row => sort_interval row f) := by
  intro px
  induction px with
  | nil => intro k; simp [sort_rows]
  | cons row rows ih =>
    intro k
    rw [List.map_cons, List.map_cons]
    simp only [sort_rows, List.headI, List.tail, sort_row_go_single, if_pos (hr k)]
    rcases eqn : row with _ | ⟨a, t⟩
    · simpa [sort_interval] using ih (k + 1)
    · rw [if_neg (by simp)]
      simpa using ih (k + 1)

/-- Every pixel of an output row of `sort_rows` is a pixel of the matching
input row. -/
theorem mem_sort_rows {randomness : ℚ} {f : SortingFunction} {rng : ℕ → ℕ} :
    ∀ (pixels : Grid) (ivs : List (List ℕ)) (k y : ℕ) {p : Pixel},
      p ∈ (sort_rows randomness f rng pixels ivs k).getD y [] →
        p ∈ pixels.getD y [] := by
  intro pixels
  induction pixels with
  | nil => intro ivs k y p h; simp [sort_rows] at h
  | cons row rows ih =>
    intro ivs k y p h
    cases y with
    | zero =>
      simp only [sort_rows, List.getD_cons_zero] at h ⊢
      by_cases hc : 0 < row.length ∧
          (sort_row_go row randomness f rng ivs.headI 0 k).2.1 = 0
      · rw [if_pos hc] at h
        rcases List.mem_append.mp h with h | h
        · exact mem_sort_row_go ivs.headI 0 k h
        · rcases eqn : row with _ | ⟨a, t⟩
          · rw [eqn] at hc; simp at hc
          · simp only [List.mem_singleton.mp (by simpa using h), eqn, List.headI]
            exact List.mem_cons_self a t
      · rw [if_neg hc] at h
        exact mem_sort_row_go ivs.headI 0 k h
    | succ n =>
      simp only [sort_rows, List.getD_cons_succ] at h ⊢
      exact ih ivs.tail _ n h

/-! ### Claim C1 -/

/-- C1 (counterexample): with strategy `none` and `randomness_percent = 100`
an interval is still sorted when its `randint(0, 100)` draw is exactly `100`
(the gate is `draw >= randomness`), so the output can differ from the
input — the claimed unconditional identity is false. -/
theorem none_randomness100_not_identity :
    sort_image [[(7, 0, 0, 255), (3, 0, 0, 255)]]
        (no_intervals [[(7, 0, 0, 255), (3, 0, 0, 255)]]) 100 red_sort (fun _ => 100)
      ≠ [[(7, 0, 0, 255), (3, 0, 0, 255)]] := by decide

/-- C1 (amended): with strategy `none` and `randomness_percent = 100`, the
row sorter is the identity on every grid provided every `randint(0, 100)`
draw is strictly below 100 (the draw `100` — probability 1/101 per
interval — sorts the interval). -/
theorem none_randomness100_identity (pixels : Grid) (f : SortingFunction)
    (rng : ℕ → ℕ) (hrng : ∀ n, rng n < 100) :
    sort_image pixels (no_intervals pixels) 100 f rng = pixels := by
  have hr : ∀ n, ¬ (100 : ℚ) ≤ (rng n : ℚ) := by
    intro n
    have h1 : (rng n : ℚ) < ((100 : ℕ) : ℚ) := Nat.cast_lt.mpr (hrng n)
    push_cast at h1
    exact not_le.mpr h1
  simpa [sort_image, no_intervals] using sort_rows_full_bounds_unsorted hr pixels 0

/-- C1 (witness): the amended identity at a concrete grid and draw stream. -/
theorem none_randomness100_identity_witness :
    (∀ n : ℕ, (fun _ : ℕ => 0) n < 100) ∧
      sort_image [[(7, 0, 0, 255), (3, 0, 0, 255)]]
          (no_intervals [[(7, 0, 0, 255), (3, 0, 0, 255)]]) 100 red_sort (fun _ => 0)
        = [[(7, 0, 0, 255), (3, 0, 0, 255)]] :=
  ⟨fun _ => by norm_num,
    none_randomness100_identity _ red_sort (fun _ => 0) (fun _ => by norm_num)⟩

/-! ### Claim C2 -/

/-- C2 (counterexample): a 1×2 grid whose row gets an empty interval list is
reconstructed with length 1, not padded back to the original width 2 — the
claimed pad-with-last-pixel-until-widths-match recovery is false. -/
theorem short_row_not_padded_to_width :
    ((sort_image [[(1, 1, 1, 255), (2, 2, 2, 255)]] [[]] 0 red_sort
        (fun _ => 0)).headI).length
      ≠ ([[(1, 1, 1, 255), (2, 2, 2, 255)]] : Grid).headI.length := by decide

/-- Final cursor of the boundary loop: the last boundary of the interval
list, or the initial cursor when the list is empty (Python's `x_min` after
`for x_max in intervals[y]`). -/
theorem sort_row_go_final_cursor (row : List Pixel) (randomness : ℚ)
    (f : SortingFunction) (rng : ℕ → ℕ) :
    ∀ (bounds : List ℕ) (x0 k : ℕ),
      (sort_row_go row randomness f rng bounds x0 k).2.1 = bounds.getLastD x0 := by
  intro bounds
  induction bounds with
  | nil => intro x0 k; rfl
  | cons b rest ih =>
    intro x0 k
    simp only [sort_row_go, List.getLastD_cons]
    exact ih b (k + 1)

/-- C2 (amended): the row sorter pads exactly when the row is non-empty and
its interval list leaves the cursor at 0 — the list is empty or its final
boundary is 0 — and then it appends exactly ONE copy of the row's FIRST
pixel after the reconstructed intervals; in every other case no padding
occurs at all, so a short reconstruction stays short of the original width
(final conjunct: a width-2 row with boundary list `[1]` comes back with
length 1). -/
theorem sort_image_padding_policy :
    (∀ (row : List Pixel) (rows : Grid) (bounds : List ℕ) (ivs : List (List ℕ))
        (randomness : ℚ) (f : SortingFunction) (rng : ℕ → ℕ),
      row ≠ [] → bounds.getLastD 0 = 0 →
      (sort_image (row :: rows) (bounds :: ivs) randomness f rng).headI
        = (sort_row_go row randomness f rng bounds 0 0).1 ++ [row.headI]) ∧
      (∀ (row : List Pixel) (rows : Grid) (bounds : List ℕ) (ivs : List (List ℕ))
          (randomness : ℚ) (f : SortingFunction) (rng : ℕ → ℕ),
        row = [] ∨ bounds.getLastD 0 ≠ 0 →
        (sort_image (row :: rows) (bounds :: ivs) randomness f rng).headI
          = (sort_row_go row randomness f rng bounds 0 0).1) ∧
      ((sort_image [[(1, 1, 1, 255), (2, 2, 2, 255)]] [[1]] 0 red_sort
          (fun _ => 0)).headI).length < 2 := by
  refine ⟨?_, ?_, by decide⟩
  · intro row rows bounds ivs randomness f rng hrow hlast
    simp only [sort_image, sort_rows, List.headI, List.tail]
    rw [if_pos ⟨List.length_pos.mpr hrow,
      by rw [sort_row_go_final_cursor]; exact hlast⟩]
  · intro row rows bounds ivs randomness f rng h
    simp only [sort_image, sort_rows, List.headI, List.tail]
    rw [if_neg ?_]
    rintro ⟨h1, h2⟩
    rw [sort_row_go_final_cursor] at h2
    rcases h with rfl | hne
    · simp at h1
    · exact hne h2

/-- C2 (witness): the padding policy at concrete grids — an empty interval
list on a non-empty width-2 row appends one first-pixel copy; the interval
list `[2]` (final boundary non-zero) gets no padding. -/
theorem sort_image_padding_policy_witness :
    (([(1, 1, 1, 255), (2, 2, 2, 255)] : List Pixel) ≠ [] ∧
        ([] : List ℕ).getLastD 0 = 0 ∧
        (sort_image [[(1, 1, 1, 255), (2, 2, 2, 255)]] [[]] 0 red_sort
            (fun _ => 0)).headI
          = (sort_row_go [(1, 1, 1, 255), (2, 2, 2, 255)] 0 red_sort (fun _ => 0)
                [] 0 0).1
            ++ [([(1, 1, 1, 255), (2, 2, 2, 255)] : List Pixel).headI]) ∧
      (([2] : List ℕ).getLastD 0 ≠ 0 ∧
        (sort_image [[(1, 1, 1, 255), (2, 2, 2, 255)]] [[2]] 0 red_sort
            (fun _ => 0)).headI
          = (sort_row_go [(1, 1, 1, 255), (2, 2, 2, 255)] 0 red_sort (fun _ => 0)
              [2] 0 0).1) :=
  ⟨⟨by decide, by decide,
    sort_image_padding_policy.1 [(1, 1, 1, 255), (2, 2, 2, 255)] [] [] [] 0
      red_sort (fun _ => 0) (by decide) (by decide)⟩,
   ⟨by decide,
    sort_image_padding_policy.2.1 [(1, 1, 1, 255), (2, 2, 2, 255)] [] [2] [] 0
      red_sort (fun _ => 0) (Or.inr (by decide))⟩⟩

/-! ### Claim C4 -/

/-- C4: with strategy `none` and `randomness_percent = 0` every interval
draw passes the gate (`randint(0, 100) >= 0`), so every output row is
sorted ascending by the chosen key and is a permutation of the matching
input row. -/
theorem none_randomness0_sorts_each_row (pixels : Grid) (f : SortingFunction)
    (rng : ℕ → ℕ) (y : ℕ) :
    ((sort_image pixels (no_intervals pixels) 0 f rng).getD y []).Pairwise
        (fun a b => f a ≤ f b) ∧
      ((sort_image pixels (no_intervals pixels) 0 f rng).getD y []).Perm
        (pixels.getD y []) := by
  have key : sort_image pixels (no_intervals pixels) 0 f rng
      = pixels.map (fun row => sort_interval row f) := by
    simpa [sort_image, no_intervals] using
      sort_rows_full_bounds_sorted (fun n => Nat.cast_nonneg _) pixels 0
  rw [key]
  clear key
  induction pixels generalizing y with
  | nil => simp
  | cons row rows ih =>
    cases y with
    | zero =>
      simp only [List.map_cons, List.getD_cons_zero]
      exact ⟨sort_interval_pairwise row f, sort_interval_perm row f⟩
    | succ n =>
      simpa only [List.map_cons, List.getD_cons_succ] using ih n

/-! ### Claim C10 -/

/-- C10: `sort_image` is total for every boundary array whatsoever, and
every pixel of an output row comes from the matching input row — interval
extraction drops every out-of-range index (`if x < len(pixels[y])`), and
the recovery pixel is the row's own first pixel. -/
theorem sort_image_reads_only_row_pixels (pixels : Grid)
    (intervals : List (List ℕ)) (randomness : ℚ) (f : SortingFunction)
    (rng : ℕ → ℕ) (y : ℕ) (p : Pixel)
    (hp : p ∈ (sort_image pixels intervals randomness f rng).getD y []) :
    p ∈ pixels.getD y [] :=
  mem_sort_rows pixels intervals 0 y hp

/-! ### Claim C6 -/

/-- C6: the rule table built by `generate_rule`'s repeated mod-2 / div-2
decomposition, lowest bit first over the fixed triple order, maps the triple
`(l, c, r)` to bit `4*l + 2*c + r` of the rule number.  This holds for every
natural rule number, in particular for every rule in `[0, 255]`. -/
theorem generate_rule_eq_testBit (rule_num : ℕ) (l c r : Bool) :
    generate_rule rule_num (l, c, r)
      = rule_num.testBit (4 * l.toNat + 2 * c.toNat + r.toNat) := by
  cases l <;> cases c <;> cases r <;>
    · simp only [generate_rule, generate_rule_go, tripleOrder, List.lookup,
        Bool.toNat_true, Bool.toNat_false, Option.getD_some, beq_self_eq_true,
        Prod.mk.injEq, cond_true, cond_false]
      norm_num [Nat.testBit_to_div_mod, Nat.div_div_eq_div_mul]
      try exact decide_eq_decide.mpr (by omega)

/-! ### Claim C7 -/

/-- Reading `getD` after `set` at a different index. -/
theorem getD_set_ne {α : Type} (l : List α) (i j : ℕ) (a d : α) (h : i ≠ j) :
    (l.set i a).getD j d = l.getD j d := by
  simp [List.getD_eq_getElem?_getD, List.getElem?_set_ne h]

/-- Reading `getD` after `set` at the same in-range index. -/
theorem getD_set_self {α : Type} (l : List α) (i : ℕ) (a d : α) (h : i < l.length) :
    (l.set i a).getD i d = a := by
  simp [List.getD_eq_getElem?_getD, List.getElem?_set_self, h]

/-- A default read that returns black is an in-range read (the default
`(0, 0, 0, 0)` is not black). -/
theorem lt_length_of_getD_black {row : List Pixel} {j : ℕ}
    (h : row.getD j (0, 0, 0, 0) = BLACK_PIXEL) : j < row.length := by
  by_contra hc
  push_neg at hc
  rw [List.getD_eq_getElem?_getD, List.getElem?_eq_none hc] at h
  simp only [Option.getD_none] at h
  exact absurd h (by decide)

/-- Pointwise description of the right-to-left double-black collapse for any
strictly decreasing list of visited columns: a write at column `x` only
affects reads at columns `> x`, which the sweep has already passed, so each
cell is decided by the ORIGINAL row values. -/
theorem denoise_foldl_getD :
    ∀ (xs : List ℕ) (row : List Pixel) (j : ℕ),
      xs.Pairwise (fun a b => b < a) →
      (xs.foldl
          (fun r x =>
            if r.getD x (0, 0, 0, 0) = BLACK_PIXEL ∧
                r.getD (x - 1) (0, 0, 0, 0) = BLACK_PIXEL
            then r.set x WHITE_PIXEL else r) row).getD j (0, 0, 0, 0) =
        if j ∈ xs ∧ row.getD j (0, 0, 0, 0) = BLACK_PIXEL ∧
            row.getD (j - 1) (0, 0, 0, 0) = BLACK_PIXEL
        then WHITE_PIXEL else row.getD j (0, 0, 0, 0) := by
  intro xs
  induction xs with
  | nil => intro row j _; simp
  | cons x rest ih =>
    intro row j hpw
    have hrest := (List.pairwise_cons.mp hpw).2
    have hlt := (List.pairwise_cons.mp hpw).1
    rw [List.foldl_cons, ih _ j hrest]
    have hget : ∀ j' : ℕ, j' ≠ x →
        ((if row.getD x (0, 0, 0, 0) = BLACK_PIXEL ∧
              row.getD (x - 1) (0, 0, 0, 0) = BLACK_PIXEL
          then row.set x WHITE_PIXEL else row)).getD j' (0, 0, 0, 0) =
          row.getD j' (0, 0, 0, 0) := by
      intro j' hj'
      split_ifs with hc
      · exact getD_set_ne _ _ _ _ _ (fun h => hj' h.symm)
      · rfl
    by_cases hj : j ∈ rest
    · have hjx : j ≠ x := by have := hlt j hj; omega
      have hjx1 : j - 1 ≠ x := by have := hlt j hj; omega
      rw [hget j hjx, hget (j - 1) hjx1]
      by_cases hb : row.getD j (0, 0, 0, 0) = BLACK_PIXEL ∧
          row.getD (j - 1) (0, 0, 0, 0) = BLACK_PIXEL
      · rw [if_pos ⟨hj, hb⟩, if_pos ⟨List.mem_cons_of_mem _ hj, hb⟩]
      · rw [if_neg (by tauto), if_neg (by tauto)]
    · rw [if_neg (by tauto)]
      by_cases hjx : j = x
      · subst hjx
        by_cases hc : row.getD j (0, 0, 0, 0) = BLACK_PIXEL ∧
            row.getD (j - 1) (0, 0, 0, 0) = BLACK_PIXEL
        · rw [if_pos hc, if_pos ⟨List.mem_cons_self _ _, hc⟩]
          exact getD_set_self _ _ _ _ (lt_length_of_getD_black hc.1)
        · rw [if_neg hc, if_neg (by tauto)]
      · rw [hget j hjx, if_neg (by simp [hjx]; tauto)]

/-- The sweep leaves an empty row empty. -/
theorem denoise_row_nil (W : ℕ) : denoise_row W [] = [] := by
  unfold denoise_row
  generalize (List.range' 2 (W - 2)).reverse = xs
  induction xs with
  | nil => rfl
  | cons x rest ih =>
    rw [List.foldl_cons, if_neg ?_]
    · exact ih
    · rw [List.getD_nil]
      exact fun h => absurd h.1 (by decide)

/-- Pointwise description of one row of the clean-up sweep: a cell turns
white exactly when it is at a column `x ∈ [2, W)` and it and its left
neighbour are both black in the pre-sweep row. -/
theorem denoise_row_getD (W : ℕ) (row : List Pixel) (j : ℕ) :
    (denoise_row W row).getD j (0, 0, 0, 0) =
      if 2 ≤ j ∧ j < W ∧ row.getD j (0, 0, 0, 0) = BLACK_PIXEL ∧
          row.getD (j - 1) (0, 0, 0, 0) = BLACK_PIXEL
      then WHITE_PIXEL else row.getD j (0, 0, 0, 0) := by
  unfold denoise_row
  rw [denoise_foldl_getD _ _ _
    (List.pairwise_reverse.mpr (by simpa using List.pairwise_lt_range' 2 (W - 2)))]
  have hmem : (j ∈ (List.range' 2 (W - 2)).reverse) ↔ (2 ≤ j ∧ j < W) := by
    rw [List.mem_reverse, List.mem_range'_1]
    omega
  simp only [hmem, and_assoc]

/-- The row sweeps of `clean_edges` are independent: each visited row is
replaced by its swept version and every other row is untouched. -/
theorem clean_edges_foldl_getD (W : ℕ) :
    ∀ (ys : List ℕ) (px : Grid) (t : ℕ),
      ys.Pairwise (fun a b => b < a) →
      (ys.foldl (fun g y => g.set y (denoise_row W (g.getD y []))) px).getD t [] =
        if t ∈ ys then denoise_row W (px.getD t []) else px.getD t [] := by
  intro ys
  induction ys with
  | nil => intro px t _; simp
  | cons y rest ih =>
    intro px t hpw
    rw [List.foldl_cons, ih _ t (List.pairwise_cons.mp hpw).2]
    have hlt := (List.pairwise_cons.mp hpw).1
    by_cases ht : t ∈ rest
    · have hty : y ≠ t := by have := hlt t ht; omega
      rw [if_pos ht, if_pos (List.mem_cons_of_mem _ ht), getD_set_ne _ _ _ _ _ hty]
    · rw [if_neg ht]
      by_cases hty : t = y
      · subst hty
        rw [if_pos (List.mem_cons_self _ _)]
        by_cases hlen : t < px.length
        · exact getD_set_self _ _ _ _ hlen
        · push_neg at hlen
          rw [List.set_eq_of_length_le hlen, List.getD_eq_getElem?_getD,
            List.getElem?_eq_none hlen]
          simp [denoise_row_nil]
      · rw [if_neg (by simp [hty, ht]), getD_set_ne _ _ _ _ _ (fun h => hty h.symm)]

/-- C7 (counterexample): on a single-row grid the clean-up sweep visits no
row at all (`range(len(pixels) - 1, 1, -1)` stops above row 1), so an
adjacent black pair in row 0 survives, although the per-row sweep itself
would collapse it — the sweep is not applied to every row of the grid. -/
theorem clean_edges_skips_first_rows :
    clean_edges 5 1 [[WHITE_PIXEL, WHITE_PIXEL, BLACK_PIXEL, BLACK_PIXEL, WHITE_PIXEL]]
        = [[WHITE_PIXEL, WHITE_PIXEL, BLACK_PIXEL, BLACK_PIXEL, WHITE_PIXEL]] ∧
      denoise_row 5 [WHITE_PIXEL, WHITE_PIXEL, BLACK_PIXEL, BLACK_PIXEL, WHITE_PIXEL]
        ≠ [WHITE_PIXEL, WHITE_PIXEL, BLACK_PIXEL, BLACK_PIXEL, WHITE_PIXEL] := by
  constructor <;> decide

/-- C7 (amended): pointwise description of the de-noise pass.  A cell is
collapsed to white exactly when it sits at column `x ∈ [2, W)` of a row
`y ∈ [2, H)` and it and its LEFT neighbour are both black in the input map:
rows 0 and 1 are never swept, the collapsed pixel of an adjacent black pair
is the right-hand one, and all reads see pre-sweep values.  The same sweep
is shared verbatim by `edge_intervals`, `file_mask_intervals` and
`file_edges_intervals` through `clean_edges`. -/
theorem clean_edges_pixel (W H : ℕ) (px : Grid) (x y : ℕ) :
    pixelAt (clean_edges W H px) x y =
      if 2 ≤ y ∧ y < H ∧ 2 ≤ x ∧ x < W ∧ pixelAt px x y = BLACK_PIXEL ∧
          pixelAt px (x - 1) y = BLACK_PIXEL
      then WHITE_PIXEL else pixelAt px x y := by
  unfold pixelAt clean_edges
  rw [clean_edges_foldl_getD W _ px y
    (List.pairwise_reverse.mpr (by simpa using List.pairwise_lt_range' 2 (H - 2)))]
  have hmem : (y ∈ (List.range' 2 (H - 2)).reverse) ↔ (2 ≤ y ∧ y < H) := by
    rw [List.mem_reverse, List.mem_range'_1]
    omega
  by_cases hy : 2 ≤ y ∧ y < H
  · rw [if_pos (hmem.mpr hy), denoise_row_getD]
    have hcond : (2 ≤ y ∧ y < H ∧ 2 ≤ x ∧ x < W ∧
          (px.getD y []).getD x (0, 0, 0, 0) = BLACK_PIXEL ∧
          (px.getD y []).getD (x - 1) (0, 0, 0, 0) = BLACK_PIXEL) ↔
        (2 ≤ x ∧ x < W ∧ (px.getD y []).getD x (0, 0, 0, 0) = BLACK_PIXEL ∧
          (px.getD y []).getD (x - 1) (0, 0, 0, 0) = BLACK_PIXEL) := by
      tauto
    simp only [hcond]
  · rw [if_neg (fun h => hy (hmem.mp h)), if_neg (by tauto)]

/-! ### Claim C3 -/

/-- Truncation is monotone. -/
theorem pyInt_mono {a b : ℚ} (h : a ≤ b) : pyInt a ≤ pyInt b := by
  have := Int.floor_le_floor h
  unfold pyInt
  omega

/-- Truncation never exceeds a natural upper bound of the cursor. -/
theorem pyInt_le_of_le_natCast {q : ℚ} {n : ℕ} (h : q ≤ n) : pyInt q ≤ n := by
  have := Int.floor_le_floor h
  rw [Int.floor_natCast] at this
  unfold pyInt
  omega

/-- The shared shape of the boundary lists built by the threshold and edge
strategies — qualifying columns of `range w` then a trailing `w` — always
satisfies the code-level boundary invariant. -/
theorem codeBoundaries_filter_range_append (w : ℕ) (P : ℕ → Bool) :
    CodeBoundaries ((List.range w).filter P ++ [w]) w := by
  refine ⟨?_, ?_, ?_⟩
  · apply List.chain'_iff_pairwise.mpr
    apply List.pairwise_append.mpr
    refine ⟨((List.pairwise_lt_range w).filter P).imp le_of_lt,
      List.pairwise_singleton _ _, ?_⟩
    intro a ha b hb
    rw [List.mem_singleton.mp hb]
    exact le_of_lt (List.mem_range.mp (List.mem_of_mem_filter ha))
  · intro b hb
    rcases List.mem_append.mp hb with h | h
    · exact le_of_lt (List.mem_range.mp (List.mem_of_mem_filter h))
    · rw [List.mem_singleton.mp h]
  · simp [List.getLast?_append]

/-- Boundary invariant for `random_intervals`, one row: whenever the fueled
loop exits, the produced list is non-decreasing, bounded by the width and
ends at the width, provided the `rand.random()` draws are at most 1 (they
lie in `[0, 1)`) and the cursor starts within the width. -/
theorem random_row_go_codeBoundaries (width clength : ℕ) (u : ℕ → ℚ)
    (hu : ∀ n, u n ≤ 1) :
    ∀ (fuel : ℕ) (x : ℚ) (k : ℕ) (bs : List ℕ) (k' : ℕ),
      x ≤ width →
      random_row_go width clength u fuel x k = Option.some (bs, k') →
      CodeBoundaries bs width ∧ (∀ h ∈ bs.head?, pyInt x ≤ h) := by
  intro fuel
  induction fuel with
  | zero => intro x k bs k' _ h; exact absurd h (by simp [random_row_go])
  | succ m ih =>
    intro x k bs k' hxw h
    simp only [random_row_go] at h
    have hstep : (0 : ℚ) ≤ (clength : ℚ) * (1 - u k) :=
      mul_nonneg (Nat.cast_nonneg _) (by linarith [hu k])
    have hxx' : x ≤ x + (clength : ℚ) * (1 - u k) := by linarith
    by_cases hc : (width : ℚ) < x + (clength : ℚ) * (1 - u k)
    · rw [if_pos hc] at h
      obtain ⟨rfl, rfl⟩ : bs = [width] ∧ k + 1 = k' := by
        have h1 := congrArg (fun o => o.map Prod.fst) h
        have h2 := congrArg (fun o => o.map Prod.snd) h
        simp at h1 h2
        exact ⟨h1.symm, h2⟩
      refine ⟨⟨List.chain'_singleton _, ?_, rfl⟩, ?_⟩
      · intro b hb
        rw [List.mem_singleton.mp hb]
      · intro b hb
        simp only [List.head?_cons, Option.mem_def, Option.some.injEq] at hb
        have := pyInt_le_of_le_natCast hxw
        omega
    · rw [if_neg hc] at h
      push_neg at hc
      cases hrec : random_row_go width clength u m (x + (clength : ℚ) * (1 - u k))
          (k + 1) with
      | none => rw [hrec] at h; exact absurd h (by simp)
      | some p =>
        rcases p with ⟨bs', k''⟩
        rw [hrec] at h
        obtain ⟨rfl, rfl⟩ : bs = pyInt (x + (clength : ℚ) * (1 - u k)) :: bs' ∧
            k'' = k' := by
          have h1 := congrArg (fun o => o.map Prod.fst) h
          have h2 := congrArg (fun o => o.map Prod.snd) h
          simp at h1 h2
          exact ⟨h1.symm, h2⟩
        obtain ⟨⟨hch, hbd, hlast⟩, hhead⟩ := ih _ (k + 1) bs' k'' hc hrec
        have hbs'ne : bs' ≠ [] := by
          intro hnil
          rw [hnil] at hlast
          simp at hlast
        refine ⟨⟨?_, ?_, ?_⟩, ?_⟩
        · exact List.chain'_cons'.mpr ⟨hhead, hch⟩
        · intro b hb
          rcases List.mem_cons.mp hb with rfl | hmem
          · exact pyInt_le_of_le_natCast hc
          · exact hbd b hmem
        · rcases bs' with _ | ⟨b0, bs''⟩
          · exact absurd rfl hbs'ne
          · rw [List.getLast?_cons_cons]
            exact hlast
        · intro b hb
          simp only [List.head?_cons, Option.mem_def, Option.some.injEq] at hb
          have := pyInt_mono hxx'
          omega

/-- Boundary invariant for `random_intervals`, whole grid. -/
theorem random_intervals_go_codeBoundaries (width clength : ℕ) (u : ℕ → ℚ)
    (hu : ∀ n, u n ≤ 1) (fuel : ℕ) :
    ∀ (rows : Grid) (k : ℕ) (ivss : List (List ℕ)),
      random_intervals_go width clength u fuel rows k = Option.some ivss →
      ∀ bs ∈ ivss, CodeBoundaries bs width := by
  intro rows
  induction rows with
  | nil =>
    intro k ivss h
    simp only [random_intervals_go, Option.some.injEq] at h
    rw [← h]
    intro bs hbs
    simp at hbs
  | cons r rows ih =>
    intro k ivss h
    cases h1 : random_row_go width clength u fuel 0 k with
    | none => simp [random_intervals_go, h1] at h
    | some p =>
      rcases p with ⟨bs0, k'⟩
      cases h2 : random_intervals_go width clength u fuel rows k' with
      | none => simp [random_intervals_go, h1, h2] at h
      | some rest =>
        simp only [random_intervals_go, h1, h2, Option.some.injEq] at h
        rw [← h]
        intro bs hbs
        rcases List.mem_cons.mp hbs with rfl | hmem
        · exact (random_row_go_codeBoundaries width clength u hu fuel 0 k bs k'
            (by exact_mod_cast Nat.cast_nonneg width) h1).1
        · exact ih k' rest h2 bs hmem

/-- Boundary invariant for `wave_intervals`, one row. -/
theorem wave_row_go_codeBoundaries (width clength : ℕ) (r : ℕ → ℕ) :
    ∀ (fuel : ℕ) (x : ℕ) (k : ℕ) (bs : List ℕ) (k' : ℕ),
      x ≤ width →
      wave_row_go width clength r fuel x k = Option.some (bs, k') →
      CodeBoundaries bs width ∧ (∀ h ∈ bs.head?, x ≤ h) := by
  intro fuel
  induction fuel with
  | zero => intro x k bs k' _ h; exact absurd h (by simp [wave_row_go])
  | succ m ih =>
    intro x k bs k' hxw h
    simp only [wave_row_go] at h
    by_cases hc : width < x + clength + r k
    · rw [if_pos hc] at h
      obtain ⟨rfl, rfl⟩ : bs = [width] ∧ k + 1 = k' := by
        have h1 := congrArg (fun o => o.map Prod.fst) h
        have h2 := congrArg (fun o => o.map Prod.snd) h
        simp at h1 h2
        exact ⟨h1.symm, h2⟩
      refine ⟨⟨List.chain'_singleton _, ?_, rfl⟩, ?_⟩
      · intro b hb
        rw [List.mem_singleton.mp hb]
      · intro b hb
        simp only [List.head?_cons, Option.mem_def, Option.some.injEq] at hb
        omega
    · rw [if_neg hc] at h
      push_neg at hc
      cases hrec : wave_row_go width clength r m (x + clength + r k) (k + 1) with
      | none => rw [hrec] at h; exact absurd h (by simp)
      | some p =>
        rcases p with ⟨bs', k''⟩
        rw [hrec] at h
        obtain ⟨rfl, rfl⟩ : bs = (x + clength + r k) :: bs' ∧ k'' = k' := by
          have h1 := congrArg (fun o => o.map Prod.fst) h
          have h2 := congrArg (fun o => o.map Prod.snd) h
          simp at h1 h2
          exact ⟨h1.symm, h2⟩
        obtain ⟨⟨hch, hbd, hlast⟩, hhead⟩ := ih _ (k + 1) bs' k'' hc hrec
        have hbs'ne : bs' ≠ [] := by
          intro hnil
          rw [hnil] at hlast
          simp at hlast
        refine ⟨⟨?_, ?_, ?_⟩, ?_⟩
        · exact List.chain'_cons'.mpr ⟨hhead, hch⟩
        · intro b hb
          rcases List.mem_cons.mp hb with rfl | hmem
          · exact hc
          · exact hbd b hmem
        · rcases bs' with _ | ⟨b0, bs''⟩
          · exact absurd rfl hbs'ne
          · rw [List.getLast?_cons_cons]
            exact hlast
        · intro b hb
          simp only [List.head?_cons, Option.mem_def, Option.some.injEq] at hb
          omega

/-- Boundary invariant for `wave_intervals`, whole grid. -/
theorem wave_intervals_go_codeBoundaries (width clength : ℕ) (r : ℕ → ℕ)
    (fuel : ℕ) :
    ∀ (rows : Grid) (k : ℕ) (ivss : List (List ℕ)),
      wave_intervals_go width clength r fuel rows k = Option.some ivss →
      ∀ bs ∈ ivss, CodeBoundaries bs width := by
  intro rows
  induction rows with
  | nil =>
    intro k ivss h
    simp only [wave_intervals_go, Option.some.injEq] at h
    rw [← h]
    intro bs hbs
    simp at hbs
  | cons r0 rows ih =>
    intro k ivss h
    cases h1 : wave_row_go width clength r fuel 0 k with
    | none => simp [wave_intervals_go, h1] at h
    | some p =>
      rcases p with ⟨bs0, k'⟩
      cases h2 : wave_intervals_go width clength r fuel rows k' with
      | none => simp [wave_intervals_go, h1, h2] at h
      | some rest =>
        simp only [wave_intervals_go, h1, h2, Option.some.injEq] at h
        rw [← h]
        intro bs hbs
        rcases List.mem_cons.mp hbs with rfl | hmem
        · exact (wave_row_go_codeBoundaries width clength r fuel 0 k bs k'
            (Nat.zero_le width) h1).1
        · exact ih k' rest h2 bs hmem

/-- Boundary invariant for the boundary-defining loop of the edge
strategies. -/
theorem define_intervals_codeBoundaries (px : Grid) (W H : ℕ) :
    ∀ bs ∈ define_intervals px W H, CodeBoundaries bs W := by
  intro bs hbs
  rcases List.mem_map.mp hbs with ⟨y, _, hy⟩
  rw [← hy]
  exact codeBoundaries_filter_range_append W _

/-- A concrete run of the `random` strategy: width 1, `clength = 1`, every
draw `1/2`, so every step advances the cursor by `1/2`.  The loop appends
`int(0.5) = 0`, then `int(1.0) = 1`, then exits at `1.5 > 1` appending the
width: boundaries `[0, 1, 1]`. -/
theorem random_intervals_halves_eval :
    random_intervals [[(0, 0, 0, 255)]] 1 (fun _ => (1 : ℚ) / 2) 3
      = Option.some [[0, 1, 1]] := by
  show random_intervals_go 1 1 (fun _ => (1 : ℚ) / 2) 3 [[(0, 0, 0, 255)]] 0 = _
  norm_num [random_intervals_go, random_row_go, pyInt]

/-- C3 (counterexample): the `random` strategy returns, on a 1×1 grid with
`clength = 1` and draws of `1/2`, the row boundary list `[0, 1, 1]` — it
contains the boundary `0 < 1` and the repeated boundary `1, 1`, so the
claimed strictly-ascending-in-`[1, width]` invariant is false. -/
theorem random_strategy_breaks_spec_bounds :
    random_intervals [[(0, 0, 0, 255)]] 1 (fun _ => (1 : ℚ) / 2) 3
        = Option.some [[0, 1, 1]] ∧
      ¬ SpecBoundaries [0, 1, 1] 1 := by
  refine ⟨random_intervals_halves_eval, fun h => ?_⟩
  have := h.2.1 0 (by simp)
  omega

/-- C3 (amended): every boundary list returned by any boundary-producing
strategy (`none`, `random`, `waves`, `threshold`, `edges`, `file`,
`file-edges`) is a NON-DECREASING sequence of integers in `[0, width]`
whose final element equals the width (`width = len(pixels[0])`; boundary 0
occurs when column 0 qualifies, repeated boundaries when a random step is
shorter than a pixel). -/
theorem interval_strategies_code_bounds :
    (∀ (pixels : Grid) (width : ℕ), (∀ row ∈ pixels, row.length = width) →
        ∀ bs ∈ no_intervals pixels, CodeBoundaries bs width) ∧
      (∀ (pixels : Grid) (b u : ℚ), ∀ bs ∈ threshold_intervals pixels b u,
        CodeBoundaries bs (pixels.headI).length) ∧
      (∀ (pixels : Grid) (clength : ℕ) (u : ℕ → ℚ) (fuel : ℕ)
          (ivss : List (List ℕ)), (∀ n, u n ≤ 1) →
        random_intervals pixels clength u fuel = Option.some ivss →
        ∀ bs ∈ ivss, CodeBoundaries bs (pixels.headI).length) ∧
      (∀ (pixels : Grid) (clength : ℕ) (r : ℕ → ℕ) (fuel : ℕ)
          (ivss : List (List ℕ)),
        wave_intervals pixels clength r fuel = Option.some ivss →
        ∀ bs ∈ ivss, CodeBoundaries bs (pixels.headI).length) ∧
      (∀ (pixels filter_pixels : Grid) (b : ℚ),
        ∀ bs ∈ edge_intervals pixels filter_pixels b,
          CodeBoundaries bs (pixels.headI).length) ∧
      (∀ (pixels file_pixels : Grid),
        ∀ bs ∈ file_mask_intervals pixels file_pixels,
          CodeBoundaries bs (pixels.headI).length) ∧
      (∀ (pixels filter_pixels : Grid) (b : ℚ),
        ∀ bs ∈ file_edges_intervals pixels filter_pixels b,
          CodeBoundaries bs (pixels.headI).length) := by
  refine ⟨?_, ?_, ?_, ?_, ?_, ?_, ?_⟩
  · intro pixels width hW bs hbs
    rcases List.mem_map.mp hbs with ⟨row, hrow, hb⟩
    rw [← hb, hW row hrow]
    exact ⟨List.chain'_singleton _, fun b hb => by rw [List.mem_singleton.mp hb], rfl⟩
  · intro pixels b u bs hbs
    rcases List.mem_map.mp hbs with ⟨row, _, hb⟩
    rw [← hb]
    exact codeBoundaries_filter_range_append _ _
  · intro pixels clength u fuel ivss hu h
    exact random_intervals_go_codeBoundaries _ clength u hu fuel pixels 0 ivss h
  · intro pixels clength r fuel ivss h
    exact wave_intervals_go_codeBoundaries _ clength r fuel pixels 0 ivss h
  · intro pixels filter_pixels b bs hbs
    exact define_intervals_codeBoundaries _ _ _ bs hbs
  · intro pixels file_pixels bs hbs
    exact define_intervals_codeBoundaries _ _ _ bs hbs
  · intro pixels filter_pixels b bs hbs
    exact define_intervals_codeBoundaries _ _ _ bs hbs

set_option maxHeartbeats 2000000 in
/-- C3 (witness): the code-level boundary invariant exercised for all seven
strategies at concrete 1×1 grids (boundary lists `[1]`, `[0, 1]`,
`[0, 1, 1]`, `[1, 1]`). -/
theorem interval_strategies_code_bounds_witness :
    (∀ row ∈ ([[(0, 0, 0, 255)]] : Grid), row.length = 1) ∧
      [1] ∈ no_intervals [[(0, 0, 0, 255)]] ∧
      CodeBoundaries [1] 1 ∧
      [0, 1] ∈ threshold_intervals [[(0, 0, 0, 255)]] (1 / 4) (4 / 5) ∧
      CodeBoundaries [0, 1] ([[(0, 0, 0, 255)]] : Grid).headI.length ∧
      (∀ n : ℕ, (fun _ : ℕ => (1 : ℚ) / 2) n ≤ 1) ∧
      CodeBoundaries [0, 1, 1] ([[(0, 0, 0, 255)]] : Grid).headI.length ∧
      wave_intervals [[(0, 0, 0, 255)]] 1 (fun _ => 0) 2 = Option.some [[1, 1]] ∧
      CodeBoundaries [1, 1] ([[(0, 0, 0, 255)]] : Grid).headI.length ∧
      [1] ∈ edge_intervals [[(0, 0, 0, 255)]] [[(0, 0, 0, 255)]] (1 / 2) ∧
      CodeBoundaries [1] ([[(0, 0, 0, 255)]] : Grid).headI.length ∧
      [0, 1] ∈ file_mask_intervals [[(0, 0, 0, 255)]] [[BLACK_PIXEL]] ∧
      CodeBoundaries [0, 1] ([[(0, 0, 0, 255)]] : Grid).headI.length ∧
      [1] ∈ file_edges_intervals [[(0, 0, 0, 255)]] [[(0, 0, 0, 255)]] (1 / 2) ∧
      CodeBoundaries [1] ([[(0, 0, 0, 255)]] : Grid).headI.length := by
  have hth : threshold_intervals [[(0, 0, 0, 255)]] (1 / 4) (4 / 5) = [[0, 1]] := by
    norm_num [threshold_intervals, lightness_sort, rgb_to_hsv, List.range_succ]
  have hedge : edge_intervals [[(0, 0, 0, 255)]] [[(0, 0, 0, 255)]] (1 / 2)
      = [[1]] := by
    norm_num [edge_intervals, define_intervals, clean_edges, black_white_map,
      lightness_sort, rgb_to_hsv, List.range_succ, WHITE_PIXEL, BLACK_PIXEL]
  have hfe : file_edges_intervals [[(0, 0, 0, 255)]] [[(0, 0, 0, 255)]] (1 / 2)
      = [[1]] := by
    norm_num [file_edges_intervals, define_intervals, clean_edges, black_white_map,
      lightness_sort, rgb_to_hsv, List.range_succ, WHITE_PIXEL, BLACK_PIXEL]
  exact ⟨by decide, by decide,
    interval_strategies_code_bounds.1 [[(0, 0, 0, 255)]] 1 (by decide) [1] (by decide),
    by rw [hth]; simp,
    interval_strategies_code_bounds.2.1 [[(0, 0, 0, 255)]] (1 / 4) (4 / 5) [0, 1]
      (by rw [hth]; simp),
    fun n => by norm_num,
    interval_strategies_code_bounds.2.2.1 [[(0, 0, 0, 255)]] 1
      (fun _ => (1 : ℚ) / 2) 3 [[0, 1, 1]] (fun n => by norm_num)
      random_intervals_halves_eval [0, 1, 1] (by simp),
    by decide,
    interval_strategies_code_bounds.2.2.2.1 [[(0, 0, 0, 255)]] 1 (fun _ => 0) 2
      [[1, 1]] (by decide) [1, 1] (by simp),
    by rw [hedge]; simp,
    interval_strategies_code_bounds.2.2.2.2.1 [[(0, 0, 0, 255)]] [[(0, 0, 0, 255)]]
      (1 / 2) [1] (by rw [hedge]; simp),
    by decide,
    interval_strategies_code_bounds.2.2.2.2.2.1 [[(0, 0, 0, 255)]] [[BLACK_PIXEL]]
      [0, 1] (by decide),
    by rw [hfe]; simp,
    interval_strategies_code_bounds.2.2.2.2.2.2 [[(0, 0, 0, 255)]] [[(0, 0, 0, 255)]]
      (1 / 2) [1] (by rw [hfe]; simp)⟩

/-! ### Claim C9 -/

/-- With `clength = 0` the accumulation step is `0 * (1 - u k) = 0`: the
cursor stays at 0 and the exit test `x > width` never fires on a width-1
row. -/
theorem random_row_go_clength_zero :
    ∀ (fuel k : ℕ), random_row_go 1 0 (fun _ => 0) fuel 0 k = Option.none := by
  intro fuel
  induction fuel with
  | zero => intro k; rfl
  | succ m ih =>
    intro k
    simp only [random_row_go]
    rw [if_neg (by norm_num)]
    rw [show ((0 : ℚ) + ((0 : ℕ) : ℚ) * (1 - 0)) = 0 by norm_num]
    rw [ih (k + 1)]

/-- C9: the `random` strategy does NOT terminate for characteristic length
0 — on a non-empty grid of positive width the `while True:` loop of
`random_intervals` never exits, so the fueled embedding returns `none` for
every fuel.  (`config/settings.py` explicitly accepts `clength = 0`,
rejecting only negative values.) -/
theorem random_intervals_clength_zero_diverges :
    ¬ ∃ fuel : ℕ,
      (random_intervals [[(0, 0, 0, 255)]] 0 (fun _ => 0) fuel).isSome := by
  rintro ⟨fuel, hsome⟩
  have h1 : random_intervals [[(0, 0, 0, 255)]] 0 (fun _ => 0) fuel
      = Option.none := by
    show random_intervals_go 1 0 (fun _ => 0) fuel [[(0, 0, 0, 255)]] 0
      = Option.none
    simp only [random_intervals_go, random_row_go_clength_zero]
  rw [h1] at hsome
  simp at hsome

/-! ### Claim C5 -/

/-- One step of the snapping loop. -/
theorem apply_thanos_snap_cons (g : Grid) (c : ℕ × ℕ) (rest : List (ℕ × ℕ)) :
    apply_thanos_snap g (c :: rest)
      = apply_thanos_snap (g.set c.2 ((g.getD c.2 []).set c.1 (0, 0, 0, 0))) rest := rfl

/-- Pixels not selected by the snap keep their channel values. -/
theorem snap_not_selected :
    ∀ (coords : List (ℕ × ℕ)) (g : Grid) (x y : ℕ),
      (x, y) ∉ coords →
      pixelAt (apply_thanos_snap g coords) x y = pixelAt g x y := by
  intro coords
  induction coords with
  | nil => intro g x y _; rfl
  | cons c rest ih =>
    rcases c with ⟨cx, cy⟩
    intro g x y h
    rw [apply_thanos_snap_cons,
      ih _ x y (fun hmem => h (List.mem_cons_of_mem _ hmem))]
    unfold pixelAt
    by_cases hy : y = cy
    · subst hy
      have hx : cx ≠ x := by
        intro he
        exact h (by rw [← he]; exact List.mem_cons_self _ _)
      by_cases hlen : y < g.length
      · rw [getD_set_self _ _ _ _ hlen, getD_set_ne _ _ _ _ _ hx]
      · push_neg at hlen
        rw [List.set_eq_of_length_le hlen]
    · rw [getD_set_ne _ _ _ _ _ (fun he => hy he.symm)]

/-- Every pixel selected by the snap becomes transparent black, provided the
grid is rectangular, the sample is without replacement (`Nodup`) and the
coordinates are in range — exactly the situation produced by
`numpy.random.choice` over the `mgrid` coordinate list. -/
theorem snap_selected :
    ∀ (coords : List (ℕ × ℕ)) (g : Grid) (W H : ℕ),
      g.length = H → (∀ row ∈ g, row.length = W) →
      coords.Nodup → (∀ c ∈ coords, c.1 < W ∧ c.2 < H) →
      ∀ x y, (x, y) ∈ coords →
        pixelAt (apply_thanos_snap g coords) x y = (0, 0, 0, 0) := by
  intro coords
  induction coords with
  | nil => intro g W H _ _ _ _ x y h; simp at h
  | cons c rest ih =>
    rcases c with ⟨cx, cy⟩
    intro g W H hH hW hnd hin x y h
    rw [apply_thanos_snap_cons]
    have hg'len : (g.set cy ((g.getD cy []).set cx (0, 0, 0, 0))).length = H := by
      rw [List.length_set]; exact hH
    have hclen : cy < g.length := by
      rw [hH]; exact (hin (cx, cy) (List.mem_cons_self _ _)).2
    have hrowlen : (g.getD cy []).length = W := by
      rw [List.getD_eq_getElem?_getD, List.getElem?_eq_getElem hclen]
      exact hW _ (List.getElem_mem hclen)
    have hg'W : ∀ row ∈ g.set cy ((g.getD cy []).set cx (0, 0, 0, 0)),
        row.length = W := by
      intro row hrow
      rcases List.mem_or_eq_of_mem_set hrow with hmem | heq
      · exact hW row hmem
      · rw [heq, List.length_set]
        exact hrowlen
    rcases List.mem_cons.mp h with heq | hmem
    · have hx : cx = x := (congrArg Prod.fst heq).symm
      have hy : cy = y := (congrArg Prod.snd heq).symm
      subst hx
      subst hy
      have hnotin : ((cx, cy) : ℕ × ℕ) ∉ rest := (List.nodup_cons.mp hnd).1
      rw [snap_not_selected rest _ cx cy hnotin]
      unfold pixelAt
      rw [getD_set_self _ _ _ _ hclen]
      have hxlen : cx < (g.getD cy []).length := by
        rw [hrowlen]; exact (hin (cx, cy) (List.mem_cons_self _ _)).1
      exact getD_set_self _ _ _ _ hxlen
    · exact ih _ W H hg'len hg'W (List.nodup_cons.mp hnd).2
        (fun c' hc' => hin c' (List.mem_cons_of_mem _ hc')) x y hmem

/-- The snapped-pixel count: exactly half when the pixel total is even,
banker's rounding of the half otherwise. -/
theorem snapped_count_eq (t : ℕ) :
    snapped_count t = if t % 4 = 3 then t / 2 + 1 else t / 2 := by
  unfold snapped_count round_half_even
  rcases Nat.even_or_odd t with ⟨a, ha⟩ | ⟨a, ha⟩
  · subst ha
    have hq : ((a + a : ℕ) : ℚ) / 2 = (a : ℚ) := by push_cast; ring
    rw [hq, Int.floor_natCast]
    rw [if_pos (by norm_num)]
    rw [if_neg (by omega)]
    omega
  · subst ha
    have hq : ((2 * a + 1 : ℕ) : ℚ) / 2 = (a : ℚ) + 1 / 2 := by push_cast; ring
    rw [hq]
    have hfl : ⌊(a : ℚ) + 1 / 2⌋ = (a : ℤ) := by
      rw [Int.floor_eq_iff]
      constructor
      · push_cast; linarith
      · push_cast; linarith
    rw [hfl]
    have hfrac : (a : ℚ) + 1 / 2 - (a : ℤ) = 1 / 2 := by push_cast; ring
    rw [hfrac]
    rw [if_neg (by norm_num), if_neg (by norm_num)]
    by_cases hpar : (a : ℤ) % 2 = 0
    · rw [if_pos hpar, if_neg (by omega)]
      omega
    · rw [if_neg hpar, if_pos (by omega)]
      omega

/-- C5 (counterexample): on a 3×1 grid the code snaps
`int(round(3 / 2, 0)) = 2` pixels (Python rounds the tie 1.5 to the even
integer 2), not `⌊3/2⌋ = 1`: a valid without-replacement sample of
`snapped_count 3 = 2` coordinates turns two pixels transparent. -/
theorem snap_count_not_floor :
    snapped_count (3 * 1) ≠ 3 * 1 / 2 ∧
      apply_thanos_snap [[(9, 9, 9, 9), (9, 9, 9, 9), (9, 9, 9, 9)]] [(0, 0), (1, 0)]
        = [[(0, 0, 0, 0), (0, 0, 0, 0), (9, 9, 9, 9)]] := by
  constructor
  · norm_num [snapped_count, round_half_even]
    all_goals decide
  · decide

/-- C5 (amended): for a rectangular `W × H` grid and any without-replacement
in-range sample of `snapped_count (W * H)` coordinates, the snap sets
exactly the sampled pixels to `(0, 0, 0, 0)` and keeps every other pixel's
channel values; the sample size is `W*H/2` rounded half to even — that is
`⌊W*H/2⌋`, except one more when `W*H ≡ 3 (mod 4)`. -/
theorem apply_thanos_snap_spec (g : Grid) (W H : ℕ) (coords : List (ℕ × ℕ))
    (hH : g.length = H) (hW : ∀ row ∈ g, row.length = W)
    (hnd : coords.Nodup) (hin : ∀ c ∈ coords, c.1 < W ∧ c.2 < H)
    (hlen : coords.length = snapped_count (W * H)) :
    (∀ x y, (x, y) ∈ coords →
        pixelAt (apply_thanos_snap g coords) x y = (0, 0, 0, 0)) ∧
      (∀ x y, (x, y) ∉ coords →
        pixelAt (apply_thanos_snap g coords) x y = pixelAt g x y) ∧
      coords.length = (if (W * H) % 4 = 3 then W * H / 2 + 1 else W * H / 2) :=
  ⟨fun x y h => snap_selected coords g W H hH hW hnd hin x y h,
   fun x y h => snap_not_selected coords g x y h,
   by rw [hlen, snapped_count_eq]⟩

/-- C5 (witness): the snap description at a concrete 3×1 grid and a concrete
two-coordinate sample. -/
theorem apply_thanos_snap_spec_witness :
    ([((0 : ℕ), (0 : ℕ)), (1, 0)] : List (ℕ × ℕ)).length = snapped_count (3 * 1) ∧
      (∀ x y, (x, y) ∈ ([((0 : ℕ), (0 : ℕ)), (1, 0)] : List (ℕ × ℕ)) →
        pixelAt (apply_thanos_snap [[(9, 9, 9, 9), (9, 9, 9, 9), (9, 9, 9, 9)]]
          [((0 : ℕ), (0 : ℕ)), (1, 0)]) x y = (0, 0, 0, 0)) ∧
      (∀ x y, (x, y) ∉ ([((0 : ℕ), (0 : ℕ)), (1, 0)] : List (ℕ × ℕ)) →
        pixelAt (apply_thanos_snap [[(9, 9, 9, 9), (9, 9, 9, 9), (9, 9, 9, 9)]]
            [((0 : ℕ), (0 : ℕ)), (1, 0)]) x y
          = pixelAt [[(9, 9, 9, 9), (9, 9, 9, 9), (9, 9, 9, 9)]] x y) ∧
      ([((0 : ℕ), (0 : ℕ)), (1, 0)] : List (ℕ × ℕ)).length
        = (if (3 * 1) % 4 = 3 then 3 * 1 / 2 + 1 else 3 * 1 / 2) := by
  have hlen : ([((0 : ℕ), (0 : ℕ)), (1, 0)] : List (ℕ × ℕ)).length
      = snapped_count (3 * 1) := by
    norm_num [snapped_count, round_half_even]
    all_goals decide
  have hmain := apply_thanos_snap_spec [[(9, 9, 9, 9), (9, 9, 9, 9), (9, 9, 9, 9)]]
    3 1 [((0 : ℕ), (0 : ℕ)), (1, 0)] rfl (by decide) (by decide) (by decide) hlen
  exact ⟨hlen, hmain.1, hmain.2.1, hmain.2.2⟩

/-! ### Claim C8 -/

/-- Lookup misses every association whose key differs from the query. -/
theorem lookup_eq_none_of_not_mem_keys {β : Type} :
    ∀ (l : List (String × β)) (name : String),
      (∀ k ∈ l.map Prod.fst, name ≠ k) → l.lookup name = Option.none := by
  intro l
  induction l with
  | nil => intro name _; rfl
  | cons p rest ih =>
    intro name h
    have hne : (name == p.1) = false := by
      have := h p.1 (by simp)
      simpa using this
    rcases p with ⟨k, v⟩
    simp only [List.lookup, hne]
    exact ih name (fun k hk => h k (by simp [hk]))

/-- Lookup returns the associated value when the keys are distinct. -/
theorem lookup_eq_some_of_mem {β : Type} :
    ∀ (l : List (String × β)), (l.map Prod.fst).Nodup →
      ∀ (name : String) (f : β), (name, f) ∈ l → l.lookup name = Option.some f := by
  intro l
  induction l with
  | nil => intro _ name f h; simp at h
  | cons p rest ih =>
    intro hnd name f h
    rcases p with ⟨k, v⟩
    rcases List.mem_cons.mp h with heq | hmem
    · rcases Prod.mk.injEq .. ▸ heq with ⟨rfl, rfl⟩
      simp [List.lookup]
    · have hk : name ≠ k := by
        intro hkeq
        subst hkeq
        have : name ∈ rest.map Prod.fst := List.mem_map.mpr ⟨(name, f), hmem, rfl⟩
        exact (List.nodup_cons.mp (by simpa using hnd)).1 this
      simp only [List.lookup, beq_eq_false_iff_ne.mpr hk]
      exact ih (List.nodup_cons.mp (by simpa using hnd)).2 name f hmem

/-- C8: registry lookup by name fails with the `FunctionNotFoundError`
payload whenever the name is not a registered key, and returns exactly the
registered function for every registered association — for both the
sort-key registry and the interval-strategy registry. -/
theorem registry_lookup_semantics :
    (∀ name : String, (∀ k ∈ SORTING_FUNCTIONS.map Prod.fst, name ≠ k) →
        get_sorting_function name
          = Except.error ⟨"sorting", name, SORTING_FUNCTIONS.map Prod.fst⟩) ∧
      (∀ (name : String) (f : SortingFunction), (name, f) ∈ SORTING_FUNCTIONS →
        get_sorting_function name = Except.ok f) ∧
      (∀ name : String, (∀ k ∈ INTERVAL_FUNCTIONS.map Prod.fst, name ≠ k) →
        get_interval_function name
          = Except.error ⟨"interval", name, INTERVAL_FUNCTIONS.map Prod.fst⟩) ∧
      (∀ (name : String) (t : IntervalFunctionTag), (name, t) ∈ INTERVAL_FUNCTIONS →
        get_interval_function name = Except.ok t) := by
  refine ⟨fun name h => ?_, fun name f h => ?_, fun name h => ?_, fun name t h => ?_⟩
  · rw [get_sorting_function, lookup_eq_none_of_not_mem_keys _ _ h]
  · rw [get_sorting_function,
      lookup_eq_some_of_mem _ (by simp [SORTING_FUNCTIONS]) _ _ h]
  · rw [get_interval_function, lookup_eq_none_of_not_mem_keys _ _ h]
  · rw [get_interval_function,
      lookup_eq_some_of_mem _ (by decide) _ _ h]

/-- C8 (witness): the registry semantics at concrete names — the
unregistered name `"zigzag"` errors in both registries, `"lightness"`
returns `lightness_sort`, `"file-edges"` returns its tag. -/
theorem registry_lookup_semantics_witness :
    (∀ k ∈ SORTING_FUNCTIONS.map Prod.fst, "zigzag" ≠ k) ∧
      get_sorting_function "zigzag"
        = Except.error ⟨"sorting", "zigzag", SORTING_FUNCTIONS.map Prod.fst⟩ ∧
      ("lightness", lightness_sort) ∈ SORTING_FUNCTIONS ∧
      get_sorting_function "lightness" = Except.ok lightness_sort ∧
      (∀ k ∈ INTERVAL_FUNCTIONS.map Prod.fst, "zigzag" ≠ k) ∧
      get_interval_function "zigzag"
        = Except.error ⟨"interval", "zigzag", INTERVAL_FUNCTIONS.map Prod.fst⟩ ∧
      ("file-edges", IntervalFunctionTag.fileEdgesTag) ∈ INTERVAL_FUNCTIONS ∧
      get_interval_function "file-edges" = Except.ok IntervalFunctionTag.fileEdgesTag :=
  ⟨by decide,
    registry_lookup_semantics.1 "zigzag" (by decide),
    by simp [SORTING_FUNCTIONS],
    registry_lookup_semantics.2.1 "lightness" lightness_sort (by simp [SORTING_FUNCTIONS]),
    by decide,
    registry_lookup_semantics.2.2.1 "zigzag" (by decide),
    by decide,
    registry_lookup_semantics.2.2.2 "file-edges" IntervalFunctionTag.fileEdgesTag (by decide)⟩

/-- C10 (witness): membership transported at a concrete grid with a
malformed boundary array (boundary 9 far beyond the row width). -/
theorem sort_image_reads_only_row_pixels_witness :
    ((7, 0, 0, 255) : Pixel) ∈
        (sort_image [[(7, 0, 0, 255), (3, 0, 0, 255)]] [[9]] 0 red_sort
          (fun _ => 0)).getD 0 [] ∧
      ((7, 0, 0, 255) : Pixel) ∈ ([[(7, 0, 0, 255), (3, 0, 0, 255)]] : Grid).getD 0 [] :=
  ⟨by decide,
    sort_image_reads_only_row_pixels [[(7, 0, 0, 255), (3, 0, 0, 255)]] [[9]] 0
      red_sort (fun _ => 0) 0 (7, 0, 0, 255) (by decide)⟩

end Pixelsort
